import Mathlib

/-!
Verification of the weekly cycling power metrics tool (`weekly_metrics.py`).

The embedding models the core pipeline with exact arithmetic: power values,
seconds and energies are rationals; the only real-number operation is the
fourth root inside normalized power, modelled with `Real.rpow`.

Timestamps are modelled by `Dt` (Gregorian year/month/day plus seconds of
day); `ymd2ord` and `isoCalendar` follow the proleptic-Gregorian ordinal and
ISO-8601 week algorithms of the Python standard library `datetime` module,
which the source calls via `.isocalendar()` and timestamp subtraction.

Python's `sorted` is a stable sort; it is modelled by `stableSort`, a stable
insertion sort, which agrees with any stable sort on every input.
-/

namespace WeeklyMetrics

/-- Stable insertion of `a` into `l`: `a` is placed before the first element
`b` with `le a b`, so among `le`-equivalent elements the inserted (earlier)
element comes first, exactly as in a stable sort. -/
def insertLe {α : Type} (le : α → α → Bool) (a : α) : List α → List α
  | [] => [a]
  | b :: t => if le a b then a :: b :: t else b :: insertLe le a t

/-- Stable insertion sort; extensionally equal to Python's `sorted` with the
same (total, transitive) boolean comparison. -/
def stableSort {α : Type} (le : α → α → Bool) : List α → List α
  | [] => []
  | a :: t => insertLe le a (stableSort le t)

/-- A timestamp: Gregorian calendar date plus seconds since midnight.
Mirrors the fields of a Python `datetime` that the source uses. -/
structure Dt where
  year : ℤ
  month : ℤ
  day : ℤ
  sec : ℚ
deriving DecidableEq, Repr

/-- Python `datetime._is_leap`. -/
def isLeap (y : ℤ) : Bool := y.fmod 4 == 0 && (y.fmod 100 != 0 || y.fmod 400 == 0)

/-- Python `datetime._days_before_year`: days in the proleptic Gregorian
calendar before January 1 of `year`. -/
def daysBeforeYear (year : ℤ) : ℤ :=
  (year - 1) * 365 + (year - 1).fdiv 4 - (year - 1).fdiv 100 + (year - 1).fdiv 400

/-- Cumulative day counts before each month in a non-leap year, indexed 1-12
(index 0 unused), as in Python `datetime._DAYS_BEFORE_MONTH`. -/
def daysBeforeMonthTable : List ℤ :=
  [0, 0, 31, 59, 90, 120, 151, 181, 212, 243, 273, 304, 334]

/-- Python `datetime._days_before_month`. -/
def daysBeforeMonth (year month : ℤ) : ℤ :=
  daysBeforeMonthTable.getD month.toNat 0 + (if 2 < month ∧ isLeap year then 1 else 0)

/-- Python `datetime._ymd2ord`: proleptic Gregorian ordinal of a date
(January 1 of year 1 is day 1). -/
def ymd2ord (year month day : ℤ) : ℤ :=
  daysBeforeYear year + daysBeforeMonth year month + day

/-- Python `datetime._isoweek1monday`: ordinal of the Monday starting ISO
week 1 of `year`. -/
def isoweek1monday (year : ℤ) : ℤ :=
  let firstday := ymd2ord year 1 1
  let firstweekday := (firstday + 6).fmod 7
  let week1monday := firstday - firstweekday
  if 3 < firstweekday then week1monday + 7 else week1monday

/-- Python `datetime.date.isocalendar`: (ISO year, ISO week, ISO weekday). -/
def isoCalendar (dt : Dt) : ℤ × ℤ × ℤ :=
  let today := ymd2ord dt.year dt.month dt.day
  let w1m := isoweek1monday dt.year
  let week := (today - w1m).fdiv 7
  let day := (today - w1m).fmod 7
  if week < 0 then
    let w1m' := isoweek1monday (dt.year - 1)
    (dt.year - 1, (today - w1m').fdiv 7 + 1, (today - w1m').fmod 7 + 1)
  else if 52 ≤ week ∧ isoweek1monday (dt.year + 1) ≤ today then
    (dt.year + 1, 1, day + 1)
  else
    (dt.year, week + 1, day + 1)

/-- Seconds elapsed since the calendar epoch; differences of `epochSec` are
exactly Python's `(t2 - t1).total_seconds()`. -/
def epochSec (dt : Dt) : ℚ :=
  (ymd2ord dt.year dt.month dt.day : ℚ) * 86400 + dt.sec

/-- One decoded FIT message, keeping only the two fields the source reads;
a missing field is `none`. -/
structure Message where
  timestamp : Option Dt
  power : Option ℚ
deriving DecidableEq, Repr

/-- The (timestamp, power) pair a message contributes, if it has both fields
(`_extract_records` loop body). -/
def recordOfMessage (m : Message) : Option (Dt × ℚ) :=
  match m.timestamp, m.power with
  | some t, some p => some (t, p)
  | _, _ => none

/-- Comparison used by `sorted(records, key=lambda item: item[0])`. -/
def recordLe (a b : Dt × ℚ) : Bool := decide (epochSec a.1 ≤ epochSec b.1)

/-- `_extract_records`: keep messages having both timestamp and power, then
stable-sort by timestamp. -/
def extractRecords (msgs : List Message) : List (Dt × ℚ) :=
  stableSort recordLe (msgs.filterMap recordOfMessage)

/-- Arithmetic mean of a list of rationals (`statistics.mean` on nonempty
input). -/
def meanQ (l : List ℚ) : ℚ := l.sum / l.length

/-- `statistics.mean`, which raises `StatisticsError` on an empty list:
modelled as `none` there. -/
def pyMean (l : List ℚ) : Option ℚ := if l = [] then none else some (meanQ l)

/-- `_rolling_average`: for each index with a full window ending at it, the
window sum divided by the window size; earlier indices yield nothing. -/
def rollingAverage (values : List ℚ) (window : ℕ) : List ℚ :=
  (List.range values.length).filterMap fun idx =>
    if idx + 1 < window then none
    else some (((values.drop (idx + 1 - window)).take window).sum / (window : ℚ))

/-- `_normalized_power`: fourth root of the mean fourth power of the
30-sample rolling averages, falling back to the plain mean (or 0) when there
are fewer than 30 samples. -/
noncomputable def normalizedPower (powers : List ℚ) : ℝ :=
  let rollingAvgs := rollingAverage powers 30
  if rollingAvgs = [] then
    (if powers = [] then 0 else ((meanQ powers : ℚ) : ℝ))
  else
    ((meanQ (rollingAvgs.map (fun v => v ^ 4)) : ℚ) : ℝ) ^ ((1 : ℝ) / 4)

/-- `_noncoasting_average`: mean of the strictly positive samples, 0 when
there are none. -/
def noncoastingAverage (powers : List ℚ) : ℚ :=
  let nonzero := powers.filter (fun p => decide (0 < p))
  if nonzero = [] then 0 else meanQ nonzero

/-- `_ride_energy_kj`: left-sample-hold integration over consecutive pairs,
skipping non-positive time deltas, in kilojoules. -/
def rideEnergyKj (records : List (Dt × ℚ)) : ℚ :=
  if records.length < 2 then 0
  else
    ((records.zip records.tail).foldl
      (fun acc pr =>
        let d := epochSec pr.2.1 - epochSec pr.1.1
        if d ≤ 0 then acc else acc + pr.1.2 * d) 0) / 1000

/-- A per-ride metrics record (the dict built by `analyze_ride`), generic in
the numeric type since the aggregation code is agnostic to it. -/
structure RideMetrics (α : Type) where
  file : String
  startTime : Dt
  avgWatts : α
  avgNp : α
  avgNoncoastingWatts : α
  totalKj : α
deriving DecidableEq, Repr

/-- `analyze_ride`: `None` when no usable samples, otherwise the metrics
record with the first (sorted) sample's timestamp as start time. -/
noncomputable def analyzeRide (fitFile : String) (msgs : List Message) :
    Option (RideMetrics ℝ) :=
  match extractRecords msgs with
  | [] => none
  | (t, p) :: rest =>
    let records := (t, p) :: rest
    let powers := records.map Prod.snd
    some
      { file := fitFile
        startTime := t
        avgWatts := ((meanQ powers : ℚ) : ℝ)
        avgNp := normalizedPower powers
        avgNoncoastingWatts := ((noncoastingAverage powers : ℚ) : ℝ)
        totalKj := ((rideEnergyKj records : ℚ) : ℝ) }

/-- `_normalized_power` with Python's partiality of `statistics.mean` made
explicit: `none` marks a raised exception. -/
noncomputable def normalizedPowerE (powers : List ℚ) : Option ℝ :=
  let rollingAvgs := rollingAverage powers 30
  if rollingAvgs = [] then
    (if powers = [] then some 0 else (pyMean powers).map (fun q => ((q : ℚ) : ℝ)))
  else
    (pyMean (rollingAvgs.map (fun v => v ^ 4))).map
      (fun q => ((q : ℚ) : ℝ) ^ ((1 : ℝ) / 4))

/-- `_noncoasting_average` with `statistics.mean`'s partiality explicit. -/
def noncoastingAverageE (powers : List ℚ) : Option ℚ :=
  let nonzero := powers.filter (fun p => decide (0 < p))
  if nonzero = [] then some 0 else pyMean nonzero

/-- `analyze_ride` with every `statistics.mean` call site partial: an outer
`none` marks a raised exception, an inner `none` the "no data" signal. -/
noncomputable def analyzeRideE (fitFile : String) (msgs : List Message) :
    Option (Option (RideMetrics ℝ)) :=
  match extractRecords msgs with
  | [] => some none
  | (t, p) :: rest =>
    let records := (t, p) :: rest
    let powers := records.map Prod.snd
    (pyMean powers).bind fun avg =>
      (normalizedPowerE powers).bind fun np =>
        (noncoastingAverageE powers).map fun nc =>
          some
            { file := fitFile
              startTime := t
              avgWatts := ((avg : ℚ) : ℝ)
              avgNp := np
              avgNoncoastingWatts := ((nc : ℚ) : ℝ)
              totalKj := ((rideEnergyKj records : ℚ) : ℝ) }

/-- The (ISO year, ISO week) grouping key of a ride (`group_by_week` loop
body). -/
def weekKey {α : Type} (r : RideMetrics α) : ℤ × ℤ :=
  ((isoCalendar r.startTime).1, (isoCalendar r.startTime).2.1)

/-- Append a key if not already present: the effect of one `defaultdict`
insertion on the dict's (insertion-ordered) key sequence. -/
def insertKey (ks : List (ℤ × ℤ)) (k : ℤ × ℤ) : List (ℤ × ℤ) :=
  if k ∈ ks then ks else ks ++ [k]

/-- The grouping dict's keys in first-insertion order. -/
def dictKeys {α : Type} (rides : List (RideMetrics α)) : List (ℤ × ℤ) :=
  rides.foldl (fun ks r => insertKey ks (weekKey r)) []

/-- `group_by_week`: association list of week key to the rides of that week
in input order (a `defaultdict(list)` keeps appends in iteration order, so
each group is exactly the order-preserving filter of the input). -/
def groupByWeek {α : Type} (rides : List (RideMetrics α)) :
    List ((ℤ × ℤ) × List (RideMetrics α)) :=
  (dictKeys rides).map fun k => (k, rides.filter (fun r => decide (weekKey r = k)))

/-- Python's `{:02d}` formatting for the (always nonnegative) week number. -/
def pad2 (n : ℤ) : String := if 0 ≤ n ∧ n < 10 then "0" ++ toString n else toString n

/-- The week label `f"{week_key[0]}-W{week_key[1]:02d}"`. -/
def weekLabel (k : ℤ × ℤ) : String := toString k.1 ++ "-W" ++ pad2 k.2

/-- `_mean`: arithmetic mean, 0 on an empty list. -/
def pyMeanOr0 {α : Type} [Field α] (l : List α) : α :=
  match l with
  | [] => 0
  | _ => l.sum / (l.length : α)

/-- One output row of the weekly summary. -/
structure WeeklySummary (α : Type) where
  week : String
  avgWatts : α
  avgNp : α
  avgNoncoastingWatts : α
  rideCount : ℕ
  totalKj : α
deriving DecidableEq, Repr

/-- `summarize_week`. -/
def summarizeWeek {α : Type} [Field α] (k : ℤ × ℤ) (rides : List (RideMetrics α)) :
    WeeklySummary α :=
  { week := weekLabel k
    avgWatts := pyMeanOr0 (rides.map (fun r => r.avgWatts))
    avgNp := pyMeanOr0 (rides.map (fun r => r.avgNp))
    avgNoncoastingWatts := pyMeanOr0 (rides.map (fun r => r.avgNoncoastingWatts))
    rideCount := rides.length
    totalKj := (rides.map (fun r => r.totalKj)).sum }

/-- Lexicographic comparison of week keys, as Python compares the tuples in
`sorted(grouped.items())` (group lists are never compared since keys are
unique). -/
def lexLe (p q : ℤ × ℤ) : Bool :=
  decide (p.1 < q.1) || (decide (p.1 = q.1) && decide (p.2 ≤ q.2))

/-- Comparison of grouped items by their week key. -/
def itemLe {α : Type} (a b : (ℤ × ℤ) × List (RideMetrics α)) : Bool := lexLe a.1 b.1

/-- The aggregation tail of `summarize_directory`: group, sort the groups by
week key, and summarize each (file discovery and CSV writing are I/O). -/
def summarizeDirectory {α : Type} [Field α] (rides : List (RideMetrics α)) :
    List (WeeklySummary α) :=
  (stableSort itemLe (groupByWeek rides)).map fun kv => summarizeWeek kv.1 kv.2

/-! ## Helper lemmas about the stable sort -/

theorem insertLe_perm {α : Type} (le : α → α → Bool) (a : α) (l : List α) :
    (insertLe le a l).Perm (a :: l) := by
  induction l with
  | nil => exact List.Perm.refl _
  | cons b t ih =>
    by_cases h : le a b = true
    · rw [insertLe, if_pos h]
    · rw [insertLe, if_neg h]
      exact (ih.cons b).trans (List.Perm.swap a b t)

theorem mem_insertLe {α : Type} (le : α → α → Bool) (a x : α) (l : List α) :
    x ∈ insertLe le a l ↔ x = a ∨ x ∈ l := by
  rw [(insertLe_perm le a l).mem_iff, List.mem_cons]

theorem stableSort_perm {α : Type} (le : α → α → Bool) (l : List α) :
    (stableSort le l).Perm l := by
  induction l with
  | nil => exact List.Perm.refl _
  | cons a t ih =>
    exact (insertLe_perm le a (stableSort le t)).trans (ih.cons a)

theorem pairwise_insertLe {α : Type} {le : α → α → Bool}
    (htrans : ∀ a b c, le a b = true → le b c = true → le a c = true)
    (htot : ∀ a b, le a b = true ∨ le b a = true)
    (a : α) {l : List α} (h : l.Pairwise (fun x y => le x y = true)) :
    (insertLe le a l).Pairwise (fun x y => le x y = true) := by
  induction l with
  | nil => simp [insertLe]
  | cons b t ih =>
    rw [List.pairwise_cons] at h
    obtain ⟨hb, ht⟩ := h
    by_cases hab : le a b = true
    · rw [insertLe, if_pos hab]
      refine List.Pairwise.cons ?_ (List.Pairwise.cons hb ht)
      intro y hy
      rcases List.mem_cons.mp hy with rfl | hyt
      · exact hab
      · exact htrans a b y hab (hb y hyt)
    · rw [insertLe, if_neg hab]
      refine List.Pairwise.cons ?_ (ih ht)
      intro y hy
      rcases (mem_insertLe le a y t).mp hy with rfl | hyt
      · rcases htot y b with h1 | h1
        · exact absurd h1 hab
        · exact h1
      · exact hb y hyt

theorem pairwise_stableSort {α : Type} {le : α → α → Bool}
    (htrans : ∀ a b c, le a b = true → le b c = true → le a c = true)
    (htot : ∀ a b, le a b = true ∨ le b a = true)
    (l : List α) :
    (stableSort le l).Pairwise (fun x y => le x y = true) := by
  induction l with
  | nil => simp [stableSort]
  | cons a t ih => exact pairwise_insertLe htrans htot a ih

theorem eq_of_perm_of_pairwise {α : Type} {r : α → α → Prop}
    (hasymm : ∀ a b, r a b → r b a → False) {l₁ l₂ : List α}
    (hp : l₁.Perm l₂) (h₁ : l₁.Pairwise r) (h₂ : l₂.Pairwise r) : l₁ = l₂ := by
  haveI : IsAntisymm α r := ⟨fun a b h h' => (hasymm a b h h').elim⟩
  exact List.eq_of_perm_of_sorted hp h₁ h₂

/-! ## Helper lemmas about the energy fold -/

theorem energy_foldl (l : List ((Dt × ℚ) × (Dt × ℚ))) (c : ℚ) :
    l.foldl
      (fun acc pr =>
        let d := epochSec pr.2.1 - epochSec pr.1.1
        if d ≤ 0 then acc else acc + pr.1.2 * d) c
      = c + (l.map (fun pr =>
          if 0 < epochSec pr.2.1 - epochSec pr.1.1 then
            pr.1.2 * (epochSec pr.2.1 - epochSec pr.1.1)
          else 0)).sum := by
  induction l generalizing c with
  | nil => simp
  | cons pr t ih =>
    simp only [List.foldl_cons, List.map_cons, List.sum_cons, ih]
    by_cases h : epochSec pr.2.1 - epochSec pr.1.1 ≤ 0
    · rw [if_pos h, if_neg (not_lt.mpr h)]
      ring
    · rw [if_neg h, if_pos (not_le.mp h)]
      ring

/-! ## Claims -/

/-- C2: total energy is the sum, over consecutive sample pairs with strictly
positive time delta, of the leading power times the delta in seconds,
divided by 1000; fewer than 2 samples give exactly 0; three samples of 100 W
at 1-second spacing give 0.2 kJ. -/
theorem claim_C2 (records : List (Dt × ℚ)) :
    rideEnergyKj records
      = ((records.zip records.tail).map (fun pr =>
          if 0 < epochSec pr.2.1 - epochSec pr.1.1 then
            pr.1.2 * (epochSec pr.2.1 - epochSec pr.1.1)
          else 0)).sum / 1000
    ∧ (records.length < 2 → rideEnergyKj records = 0)
    ∧ rideEnergyKj [(⟨1, 1, 1, 0⟩, 100), (⟨1, 1, 1, 1⟩, 100), (⟨1, 1, 1, 2⟩, 100)]
        = 1 / 5 := by
  refine ⟨?_, ?_, ?_⟩
  · rw [rideEnergyKj]
    by_cases h : records.length < 2
    · rw [if_pos h]
      match records, h with
      | [], _ => simp
      | [x], _ => simp
    · rw [if_neg h, energy_foldl, zero_add]
  · intro h
    rw [rideEnergyKj, if_pos h]
  · have hy : ymd2ord 1 1 1 = 1 := by decide
    rw [rideEnergyKj]
    norm_num [epochSec, hy, List.zip, List.zipWith]

/-- C2 witness: a single-sample sequence satisfies the short-input clause. -/
theorem claim_C2_witness :
    rideEnergyKj [(⟨2024, 1, 29, 0⟩, 250)] = 0 :=
  (claim_C2 [(⟨2024, 1, 29, 0⟩, 250)]).2.1 (by decide)

/-- C7: the non-coasting average is the arithmetic mean of exactly the
strictly positive samples, and 0 when there are none. -/
theorem claim_C7 (powers : List ℚ) :
    (powers.filter (fun p => decide (0 < p)) ≠ [] →
      noncoastingAverage powers
        = (powers.filter (fun p => decide (0 < p))).sum
            / ((powers.filter (fun p => decide (0 < p))).length : ℚ))
    ∧ (powers.filter (fun p => decide (0 < p)) = [] →
        noncoastingAverage powers = 0) := by
  constructor
  · intro h
    rw [noncoastingAverage, meanQ]
    simp only [if_neg h]
  · intro h
    rw [noncoastingAverage]
    simp only [if_pos h]

/-- C7 witness: evaluated on `[0, 3, 5]` (two positive samples) and on
`[0, -2]` (no positive samples). -/
theorem claim_C7_witness :
    noncoastingAverage [0, 3, 5]
      = (([0, 3, 5] : List ℚ).filter (fun p => decide (0 < p))).sum
          / ((([0, 3, 5] : List ℚ).filter (fun p => decide (0 < p))).length : ℚ)
    ∧ noncoastingAverage [0, -2] = 0 :=
  ⟨(claim_C7 [0, 3, 5]).1 (by norm_num [List.filter]; exact List.cons_ne_nil 3 [5]),
   (claim_C7 [0, -2]).2 (by norm_num [List.filter])⟩

/-! ## Claim C5: extraction under permutation -/

theorem recordLe_total (a b : Dt × ℚ) : recordLe a b = true ∨ recordLe b a = true := by
  rw [recordLe, recordLe, decide_eq_true_eq, decide_eq_true_eq]
  exact le_total _ _

theorem recordLe_trans (a b c : Dt × ℚ) (h1 : recordLe a b = true)
    (h2 : recordLe b c = true) : recordLe a c = true := by
  rw [recordLe, decide_eq_true_eq] at h1 h2 ⊢
  exact le_trans h1 h2

theorem extractRecords_pairwise_lt (msgs : List Message)
    (hnd : ((msgs.filterMap recordOfMessage).map (fun r => epochSec r.1)).Nodup) :
    (extractRecords msgs).Pairwise (fun a b => epochSec a.1 < epochSec b.1) := by
  have h1 : (extractRecords msgs).Pairwise (fun a b => recordLe a b = true) :=
    pairwise_stableSort recordLe_trans recordLe_total _
  have hmap : ((extractRecords msgs).map (fun r => epochSec r.1)).Perm
      ((msgs.filterMap recordOfMessage).map (fun r => epochSec r.1)) :=
    (stableSort_perm recordLe _).map _
  have hnd2 : ((extractRecords msgs).map (fun r => epochSec r.1)).Nodup :=
    (hmap.nodup_iff).mpr hnd
  have hne : (extractRecords msgs).Pairwise (fun a b => epochSec a.1 ≠ epochSec b.1) :=
    List.pairwise_map.mp hnd2
  refine (h1.and hne).imp ?_
  rintro a b ⟨hle, hab⟩
  exact lt_of_le_of_ne (of_decide_eq_true hle) hab

/-- C5 (amended): with pairwise-distinct timestamps among the kept samples,
the extractor output — and hence the total energy — is invariant under
permutation of the message stream. -/
theorem claim_C5 (msgs₁ msgs₂ : List Message) (hperm : msgs₁.Perm msgs₂)
    (hnd : ((msgs₁.filterMap recordOfMessage).map (fun r => epochSec r.1)).Nodup) :
    extractRecords msgs₁ = extractRecords msgs₂
    ∧ rideEnergyKj (extractRecords msgs₁) = rideEnergyKj (extractRecords msgs₂) := by
  have hk : (msgs₁.filterMap recordOfMessage).Perm (msgs₂.filterMap recordOfMessage) :=
    hperm.filterMap _
  have hp : (extractRecords msgs₁).Perm (extractRecords msgs₂) :=
    ((stableSort_perm recordLe _).trans hk).trans (stableSort_perm recordLe _).symm
  have hnd₂ : ((msgs₂.filterMap recordOfMessage).map (fun r => epochSec r.1)).Nodup :=
    ((hk.map _).nodup_iff).mp hnd
  have heq : extractRecords msgs₁ = extractRecords msgs₂ :=
    eq_of_perm_of_pairwise (fun a b h h' => lt_asymm h h') hp
      (extractRecords_pairwise_lt msgs₁ hnd) (extractRecords_pairwise_lt msgs₂ hnd₂)
  exact ⟨heq, by rw [heq]⟩

theorem ord_day_one : ymd2ord 1 1 1 = 1 := by decide

/-- C5 witness: two messages with distinct timestamps, swapped. -/
theorem claim_C5_witness :
    extractRecords [⟨some ⟨1, 1, 1, 1⟩, some 100⟩, ⟨some ⟨1, 1, 1, 0⟩, some 50⟩]
      = extractRecords [⟨some ⟨1, 1, 1, 0⟩, some 50⟩, ⟨some ⟨1, 1, 1, 1⟩, some 100⟩]
    ∧ rideEnergyKj (extractRecords [⟨some ⟨1, 1, 1, 1⟩, some 100⟩, ⟨some ⟨1, 1, 1, 0⟩, some 50⟩])
      = rideEnergyKj (extractRecords [⟨some ⟨1, 1, 1, 0⟩, some 50⟩, ⟨some ⟨1, 1, 1, 1⟩, some 100⟩]) :=
  claim_C5 _ _ (List.Perm.swap _ _ _)
    (by norm_num [recordOfMessage, epochSec, ord_day_one, List.filterMap_cons,
      List.nodup_cons])

/-- The message stream of the C5 counterexample: two messages share the
timestamp one second after midnight but carry different powers. -/
def exMsgsA : List Message :=
  [⟨some ⟨1, 1, 1, 0⟩, some 0⟩, ⟨some ⟨1, 1, 1, 1⟩, some 100⟩,
   ⟨some ⟨1, 1, 1, 1⟩, some 0⟩, ⟨some ⟨1, 1, 1, 2⟩, some 0⟩]

/-- The same messages with the two equal-timestamp messages swapped. -/
def exMsgsB : List Message :=
  [⟨some ⟨1, 1, 1, 0⟩, some 0⟩, ⟨some ⟨1, 1, 1, 1⟩, some 0⟩,
   ⟨some ⟨1, 1, 1, 1⟩, some 100⟩, ⟨some ⟨1, 1, 1, 2⟩, some 0⟩]

/-- C5 counterexample: `exMsgsB` is a permutation of `exMsgsA`, yet the
extractor outputs differ (the stable sort keeps equal-timestamp records in
input order) and so do the computed total energies (0 vs 0.1 kJ). -/
theorem claim_C5_counterexample :
    exMsgsA.Perm exMsgsB
    ∧ extractRecords exMsgsA ≠ extractRecords exMsgsB
    ∧ rideEnergyKj (extractRecords exMsgsA) ≠ rideEnergyKj (extractRecords exMsgsB) := by
  have hA : extractRecords exMsgsA
      = [(⟨1, 1, 1, 0⟩, 0), (⟨1, 1, 1, 1⟩, 100), (⟨1, 1, 1, 1⟩, 0), (⟨1, 1, 1, 2⟩, 0)] := by
    norm_num [exMsgsA, extractRecords, recordOfMessage, stableSort, insertLe, recordLe,
      epochSec, ord_day_one]
  have hB : extractRecords exMsgsB
      = [(⟨1, 1, 1, 0⟩, 0), (⟨1, 1, 1, 1⟩, 0), (⟨1, 1, 1, 1⟩, 100), (⟨1, 1, 1, 2⟩, 0)] := by
    norm_num [exMsgsB, extractRecords, recordOfMessage, stableSort, insertLe, recordLe,
      epochSec, ord_day_one]
  refine ⟨List.Perm.cons _ (List.Perm.swap _ _ _), ?_, ?_⟩
  · rw [hA, hB]
    simp
  · rw [hA, hB, rideEnergyKj, rideEnergyKj]
    norm_num [epochSec, ord_day_one, List.zip, List.zipWith]

/-! ## Claims C1 and C4: rolling average and normalized power -/

theorem filterMap_range_window (w : ℕ) (hw : 1 ≤ w) (g : ℕ → ℚ) (n : ℕ) :
    (List.range n).filterMap
        (fun idx => if idx + 1 < w then none else some (g (idx + 1 - w)))
      = (List.range (n + 1 - w)).map g := by
  induction n with
  | zero =>
    have h0 : 0 + 1 - w = 0 := by omega
    simp [h0]
  | succ n ih =>
    rw [List.range_succ, List.filterMap_append, ih]
    by_cases h : n + 1 < w
    · have h2 : n + 1 + 1 - w = n + 1 - w := by omega
      simp [h, h2]
    · have h2 : n + 1 + 1 - w = (n + 1 - w) + 1 := by omega
      rw [h2, List.range_succ, List.map_append]
      simp [h]

theorem rollingAverage_eq (values : List ℚ) (w : ℕ) (hw : 1 ≤ w) :
    rollingAverage values w
      = (List.range (values.length + 1 - w)).map
          (fun j => ((values.drop j).take w).sum / (w : ℚ)) := by
  rw [rollingAverage]
  exact filterMap_range_window w hw (fun j => ((values.drop j).take w).sum / (w : ℚ))
    values.length

theorem meanQ_replicate (m : ℕ) (hm : 1 ≤ m) (x : ℚ) :
    meanQ (List.replicate m x) = x := by
  rw [meanQ, List.sum_replicate, List.length_replicate, nsmul_eq_mul]
  exact mul_div_cancel_left₀ x (Nat.cast_ne_zero.mpr (by omega))

theorem rollingAverage_replicate (n : ℕ) (c : ℚ) :
    rollingAverage (List.replicate n c) 30 = List.replicate (n + 1 - 30) c := by
  rw [rollingAverage_eq _ 30 (by norm_num), List.length_replicate]
  refine List.eq_replicate_iff.mpr ⟨by simp, ?_⟩
  intro b hb
  obtain ⟨j, hj, rfl⟩ := List.mem_map.mp hb
  rw [List.mem_range] at hj
  rw [List.drop_replicate, List.take_replicate]
  have hmin : min 30 (n - j) = 30 := by omega
  rw [hmin, List.sum_replicate, nsmul_eq_mul]
  norm_num

/-- C1: the rolling-average sequence holds, for each index `i ≥ 29`, the
arithmetic mean of the 30-sample window ending at `i`, and nothing for
earlier indices; normalized power is the fourth root of the mean fourth
power of that sequence when it is non-empty, the plain average when it is
empty but the power sequence is not, and 0 for an empty power sequence. -/
theorem claim_C1 (P : List ℚ) :
    (rollingAverage P 30).length = P.length - 29
    ∧ (∀ i, 29 ≤ i → i < P.length →
        (rollingAverage P 30)[i - 29]? = some (meanQ ((P.drop (i - 29)).take 30)))
    ∧ (rollingAverage P 30 ≠ [] →
        normalizedPower P
          = ((meanQ ((rollingAverage P 30).map (fun v => v ^ 4)) : ℚ) : ℝ) ^ ((1 : ℝ) / 4))
    ∧ (rollingAverage P 30 = [] → P ≠ [] → normalizedPower P = ((meanQ P : ℚ) : ℝ))
    ∧ (P = [] → normalizedPower P = 0) := by
  refine ⟨?_, ?_, ?_, ?_, ?_⟩
  · rw [rollingAverage_eq P 30 (by norm_num), List.length_map, List.length_range]
    omega
  · intro i h29 hlen
    rw [rollingAverage_eq P 30 (by norm_num), List.getElem?_map,
      List.getElem?_range (by omega : i - 29 < P.length + 1 - 30)]
    rw [Option.map_some']
    congr 1
    rw [meanQ, List.length_take, List.length_drop]
    have hmin : min 30 (P.length - (i - 29)) = 30 := by omega
    rw [hmin]
  · intro h
    simp only [normalizedPower]
    rw [if_neg h]
  · intro h hP
    simp only [normalizedPower]
    rw [if_pos h, if_neg hP]
  · intro h
    subst h
    simp [normalizedPower, rollingAverage]

/-- C1 witness: the window mean at index 29 of thirty ones, the non-empty
branch there, the fallback branch on a single sample, and the empty case. -/
theorem claim_C1_witness :
    (rollingAverage (List.replicate 30 (1 : ℚ)) 30)[0]?
      = some (meanQ (((List.replicate 30 (1 : ℚ)).drop 0).take 30))
    ∧ normalizedPower (List.replicate 30 (1 : ℚ))
        = ((meanQ ((rollingAverage (List.replicate 30 (1 : ℚ)) 30).map (fun v => v ^ 4)) : ℚ) : ℝ)
            ^ ((1 : ℝ) / 4)
    ∧ normalizedPower [3] = ((meanQ [3] : ℚ) : ℝ)
    ∧ normalizedPower [] = 0 := by
  have hne : rollingAverage (List.replicate 30 (1 : ℚ)) 30 ≠ [] := by
    rw [rollingAverage_replicate]
    simp
  have hnil : rollingAverage [3] 30 = [] := by
    rw [rollingAverage_eq _ 30 (by norm_num)]
    simp
  exact ⟨(claim_C1 (List.replicate 30 (1 : ℚ))).2.1 29 (by norm_num) (by simp),
    (claim_C1 (List.replicate 30 (1 : ℚ))).2.2.1 hne,
    (claim_C1 [3]).2.2.2.1 hnil (by simp),
    (claim_C1 []).2.2.2.2 rfl⟩

/-- C4: a constant-power sequence of length at least 1 with positive value
has average, normalized and non-coasting power all equal to that value, on
both sides of the 30-sample window threshold. -/
theorem claim_C4 (c : ℚ) (n : ℕ) (hc : 0 < c) (hn : 1 ≤ n) :
    meanQ (List.replicate n c) = c
    ∧ normalizedPower (List.replicate n c) = (c : ℝ)
    ∧ noncoastingAverage (List.replicate n c) = c := by
  have hmean := meanQ_replicate n hn c
  have hnil : List.replicate n c ≠ [] := by
    simp only [ne_eq, List.replicate_eq_nil_iff]
    omega
  refine ⟨hmean, ?_, ?_⟩
  · have hr := rollingAverage_replicate n c
    by_cases h : n + 1 - 30 = 0
    · simp only [normalizedPower]
      rw [hr, h, List.replicate_zero, if_pos rfl, if_neg hnil, hmean]
    · simp only [normalizedPower]
      rw [hr, if_neg (by simp only [ne_eq, List.replicate_eq_nil_iff]; omega),
        List.map_replicate, meanQ_replicate (n + 1 - 30) (by omega) (c ^ 4)]
      push_cast
      rw [← Real.rpow_natCast ((c : ℚ) : ℝ) 4,
        ← Real.rpow_mul (by positivity : (0 : ℝ) ≤ ((c : ℚ) : ℝ))]
      norm_num
  · rw [noncoastingAverage]
    have hfilter : (List.replicate n c).filter (fun p => decide (0 < p))
        = List.replicate n c := by
      refine List.filter_eq_self.mpr ?_
      intro a ha
      rw [List.eq_of_mem_replicate ha]
      exact decide_eq_true hc
    rw [hfilter, if_neg hnil, hmean]

/-- C4 witness: thirty-one samples of 2 watts. -/
theorem claim_C4_witness :
    meanQ (List.replicate 31 (2 : ℚ)) = 2
    ∧ normalizedPower (List.replicate 31 (2 : ℚ)) = ((2 : ℚ) : ℝ)
    ∧ noncoastingAverage (List.replicate 31 (2 : ℚ)) = 2 :=
  claim_C4 2 31 (by norm_num) (by norm_num)

/-! ## Claims C3, C8, C10: weekly aggregation -/

/-- Strict lexicographic order on week keys. -/
def lexLt (p q : ℤ × ℤ) : Prop := p.1 < q.1 ∨ (p.1 = q.1 ∧ p.2 < q.2)

theorem lexLe_iff (p q : ℤ × ℤ) :
    lexLe p q = true ↔ p.1 < q.1 ∨ (p.1 = q.1 ∧ p.2 ≤ q.2) := by
  rw [lexLe]
  simp [Bool.or_eq_true, Bool.and_eq_true, decide_eq_true_eq]

theorem lexLe_total (p q : ℤ × ℤ) : lexLe p q = true ∨ lexLe q p = true := by
  rw [lexLe_iff, lexLe_iff]
  omega

theorem lexLe_trans (p q r : ℤ × ℤ) (h1 : lexLe p q = true) (h2 : lexLe q r = true) :
    lexLe p r = true := by
  rw [lexLe_iff] at h1 h2 ⊢
  omega

theorem lexLt_of_le_ne {p q : ℤ × ℤ} (h : lexLe p q = true) (hne : p ≠ q) : lexLt p q := by
  rw [lexLe_iff] at h
  rw [lexLt]
  have hne' : ¬(p.1 = q.1 ∧ p.2 = q.2) := fun hpq => hne (Prod.ext_iff.mpr hpq)
  omega

theorem lexLt_asymm {p q : ℤ × ℤ} (h : lexLt p q) (h' : lexLt q p) : False := by
  rw [lexLt] at h h'
  omega

theorem itemLe_total {α : Type} (a b : (ℤ × ℤ) × List (RideMetrics α)) :
    itemLe a b = true ∨ itemLe b a = true :=
  lexLe_total a.1 b.1

theorem itemLe_trans {α : Type} (a b c : (ℤ × ℤ) × List (RideMetrics α))
    (h1 : itemLe a b = true) (h2 : itemLe b c = true) : itemLe a c = true :=
  lexLe_trans a.1 b.1 c.1 h1 h2

theorem mem_insertKey (ks : List (ℤ × ℤ)) (k x : ℤ × ℤ) :
    x ∈ insertKey ks k ↔ x ∈ ks ∨ x = k := by
  rw [insertKey]
  by_cases h : k ∈ ks
  · rw [if_pos h]
    exact ⟨Or.inl, fun hx => hx.elim id (fun he => he ▸ h)⟩
  · rw [if_neg h]
    simp

theorem nodup_insertKey (ks : List (ℤ × ℤ)) (k : ℤ × ℤ) (h : ks.Nodup) :
    (insertKey ks k).Nodup := by
  rw [insertKey]
  by_cases hk : k ∈ ks
  · rw [if_pos hk]
    exact h
  · rw [if_neg hk]
    simp [List.nodup_append, h, hk]

theorem mem_foldl_insertKey {α : Type} (rides : List (RideMetrics α)) :
    ∀ (init : List (ℤ × ℤ)) (x : ℤ × ℤ),
      x ∈ rides.foldl (fun ks r => insertKey ks (weekKey r)) init
        ↔ x ∈ init ∨ x ∈ rides.map weekKey := by
  induction rides with
  | nil => intro init x; simp
  | cons r t ih =>
    intro init x
    rw [List.foldl_cons, ih, mem_insertKey, List.map_cons, List.mem_cons]
    tauto

theorem nodup_foldl_insertKey {α : Type} (rides : List (RideMetrics α)) :
    ∀ init : List (ℤ × ℤ), init.Nodup →
      (rides.foldl (fun ks r => insertKey ks (weekKey r)) init).Nodup := by
  induction rides with
  | nil => intro init h; exact h
  | cons r t ih => intro init h; exact ih _ (nodup_insertKey _ _ h)

theorem mem_dictKeys {α : Type} (rides : List (RideMetrics α)) (x : ℤ × ℤ) :
    x ∈ dictKeys rides ↔ x ∈ rides.map weekKey := by
  rw [dictKeys, mem_foldl_insertKey]
  simp

theorem nodup_dictKeys {α : Type} (rides : List (RideMetrics α)) :
    (dictKeys rides).Nodup :=
  nodup_foldl_insertKey rides [] List.nodup_nil

theorem map_fst_groupByWeek {α : Type} (rides : List (RideMetrics α)) :
    (groupByWeek rides).map Prod.fst = dictKeys rides := by
  simp [groupByWeek, List.map_map, Function.comp_def]

/-- The sorted grouped items are exactly the sorted distinct keys, each
paired with the order-preserving filter of the input. -/
theorem sorted_groups_eq {α : Type} (rides : List (RideMetrics α)) :
    stableSort itemLe (groupByWeek rides)
      = (stableSort lexLe (dictKeys rides)).map
          (fun k => (k, rides.filter (fun r => decide (weekKey r = k)))) := by
  have hp : (stableSort itemLe (groupByWeek rides)).Perm
      ((stableSort lexLe (dictKeys rides)).map
        (fun k => (k, rides.filter (fun r => decide (weekKey r = k))))) := by
    refine (stableSort_perm itemLe _).trans ?_
    rw [groupByWeek]
    exact ((stableSort_perm lexLe (dictKeys rides)).map _).symm
  have hnd1 : ((stableSort itemLe (groupByWeek rides)).map Prod.fst).Nodup := by
    refine (((stableSort_perm itemLe (groupByWeek rides)).map Prod.fst).nodup_iff).mpr ?_
    rw [map_fst_groupByWeek]
    exact nodup_dictKeys rides
  have h1 : (stableSort itemLe (groupByWeek rides)).Pairwise (fun a b => lexLt a.1 b.1) := by
    have hle := pairwise_stableSort (itemLe_trans (α := α)) (itemLe_total (α := α))
      (groupByWeek rides)
    have hne : (stableSort itemLe (groupByWeek rides)).Pairwise
        (fun a b => a.1 ≠ (b.1 : ℤ × ℤ)) := List.pairwise_map.mp hnd1
    refine (hle.and hne).imp ?_
    rintro a b ⟨hab, hne'⟩
    exact lexLt_of_le_ne hab hne'
  have h2 : ((stableSort lexLe (dictKeys rides)).map
      (fun k => (k, rides.filter (fun r => decide (weekKey r = k))))).Pairwise
        (fun a b => lexLt a.1 b.1) := by
    refine List.pairwise_map.mpr ?_
    have hle := pairwise_stableSort lexLe_trans lexLe_total (dictKeys rides)
    have hnd : (stableSort lexLe (dictKeys rides)).Nodup :=
      ((stableSort_perm lexLe (dictKeys rides)).nodup_iff).mpr (nodup_dictKeys rides)
    refine (hle.and hnd).imp ?_
    rintro a b ⟨hab, hne'⟩
    exact lexLt_of_le_ne hab hne'
  exact eq_of_perm_of_pairwise (fun a b h h' => lexLt_asymm h h') hp h1 h2

theorem pyMeanOr0_of_ne_nil {α : Type} [Field α] {l : List α} (h : l ≠ []) :
    pyMeanOr0 l = l.sum / (l.length : α) := by
  match l, h with
  | a :: t, _ => rfl

/-- C3: the weekly summary rows are indexed by exactly the distinct
(ISO year, ISO week) keys of the input rides, in strictly ascending
lexicographic order; each row carries the `{isoyear}-W{isoweek:02d}` label,
the arithmetic means of the per-ride metrics over the rides of that week,
the group size, and the summed energy. -/
theorem claim_C3 {α : Type} [Field α] (rides : List (RideMetrics α)) :
    ∃ ks : List (ℤ × ℤ),
      (∀ k, k ∈ ks ↔ k ∈ rides.map weekKey)
      ∧ ks.Pairwise lexLt
      ∧ summarizeDirectory rides = ks.map (fun k =>
          { week := toString k.1 ++ "-W" ++ pad2 k.2
            avgWatts := ((rides.filter (fun r => decide (weekKey r = k))).map
                  (fun r => r.avgWatts)).sum
                / (((rides.filter (fun r => decide (weekKey r = k))).length : α))
            avgNp := ((rides.filter (fun r => decide (weekKey r = k))).map
                  (fun r => r.avgNp)).sum
                / (((rides.filter (fun r => decide (weekKey r = k))).length : α))
            avgNoncoastingWatts := ((rides.filter (fun r => decide (weekKey r = k))).map
                  (fun r => r.avgNoncoastingWatts)).sum
                / (((rides.filter (fun r => decide (weekKey r = k))).length : α))
            rideCount := (rides.filter (fun r => decide (weekKey r = k))).length
            totalKj := ((rides.filter (fun r => decide (weekKey r = k))).map
                (fun r => r.totalKj)).sum }) := by
  refine ⟨stableSort lexLe (dictKeys rides), ?_, ?_, ?_⟩
  · intro k
    rw [(stableSort_perm lexLe (dictKeys rides)).mem_iff, mem_dictKeys]
  · have hle := pairwise_stableSort lexLe_trans lexLe_total (dictKeys rides)
    have hnd : (stableSort lexLe (dictKeys rides)).Nodup :=
      ((stableSort_perm lexLe (dictKeys rides)).nodup_iff).mpr (nodup_dictKeys rides)
    refine (hle.and hnd).imp ?_
    rintro a b ⟨hab, hne'⟩
    exact lexLt_of_le_ne hab hne'
  · rw [summarizeDirectory, sorted_groups_eq, List.map_map]
    refine List.map_congr_left ?_
    intro k hk
    have hkk : k ∈ rides.map weekKey := by
      rw [← mem_dictKeys, ← (stableSort_perm lexLe (dictKeys rides)).mem_iff]
      exact hk
    obtain ⟨r, hr, hrk⟩ := List.mem_map.mp hkk
    have hg : rides.filter (fun r => decide (weekKey r = k)) ≠ [] := by
      intro hnil
      have : r ∈ rides.filter (fun r => decide (weekKey r = k)) :=
        List.mem_filter.mpr ⟨hr, decide_eq_true hrk⟩
      rw [hnil] at this
      cases this
    simp only [Function.comp_apply, summarizeWeek, weekLabel]
    rw [pyMeanOr0_of_ne_nil (by simpa using hg), pyMeanOr0_of_ne_nil (by simpa using hg),
      pyMeanOr0_of_ne_nil (by simpa using hg)]
    simp only [List.length_map]

/-- C8: every emitted weekly row counts at least one ride, and there is
exactly one row per distinct week key of the input. -/
theorem claim_C8 {α : Type} [Field α] (rides : List (RideMetrics α)) :
    (∀ row ∈ summarizeDirectory rides, 1 ≤ row.rideCount)
    ∧ (summarizeDirectory rides).length = ((rides.map weekKey).dedup).length := by
  constructor
  · intro row hrow
    rw [summarizeDirectory, sorted_groups_eq, List.map_map] at hrow
    obtain ⟨k, hk, rfl⟩ := List.mem_map.mp hrow
    have hkk : k ∈ rides.map weekKey := by
      rw [← mem_dictKeys, ← (stableSort_perm lexLe (dictKeys rides)).mem_iff]
      exact hk
    obtain ⟨r, hr, hrk⟩ := List.mem_map.mp hkk
    have hmem : r ∈ rides.filter (fun r => decide (weekKey r = k)) :=
      List.mem_filter.mpr ⟨hr, decide_eq_true hrk⟩
    have hlen : 0 < (rides.filter (fun r => decide (weekKey r = k))).length :=
      List.length_pos_of_mem hmem
    simpa [Function.comp_apply, summarizeWeek] using hlen
  · rw [summarizeDirectory, List.length_map, (stableSort_perm itemLe _).length_eq,
      groupByWeek, List.length_map]
    have hperm : (dictKeys rides).Perm ((rides.map weekKey).dedup) := by
      refine (List.perm_ext_iff_of_nodup (nodup_dictKeys rides) (List.nodup_dedup _)).mpr ?_
      intro a
      rw [mem_dictKeys, List.mem_dedup]
    exact hperm.length_eq

/-- A concrete ride record used by aggregation witnesses. -/
def exRide : RideMetrics ℚ := ⟨"a.fit", ⟨2024, 1, 29, 0⟩, 150, 150, 150, 300⟩

/-- C8 witness: a single-ride input yields one row counting one ride. -/
theorem claim_C8_witness :
    1 ≤ (summarizeWeek (weekKey exRide) [exRide]).rideCount
    ∧ (summarizeDirectory [exRide]).length = (([exRide].map weekKey).dedup).length := by
  have hmem : summarizeWeek (weekKey exRide) [exRide] ∈ summarizeDirectory [exRide] := by
    simp [summarizeDirectory, groupByWeek, dictKeys, insertKey, stableSort, insertLe,
      List.filter]
  exact ⟨(claim_C8 [exRide]).1 _ hmem, (claim_C8 [exRide]).2⟩

theorem sum_map_ite_single {M : Type} [AddCommMonoid M]
    (ks : List (ℤ × ℤ)) (x : ℤ × ℤ) (c : M) (hnd : ks.Nodup) (hx : x ∈ ks) :
    (ks.map (fun k => if x = k then c else 0)).sum = c := by
  induction ks with
  | nil => cases hx
  | cons a t ih =>
    rw [List.map_cons, List.sum_cons]
    rcases List.mem_cons.mp hx with rfl | hxt
    · rw [if_pos rfl]
      have hz : (t.map (fun k => if x = k then c else 0)).sum = 0 := by
        refine List.sum_eq_zero ?_
        intro y hy
        obtain ⟨k, hk, rfl⟩ := List.mem_map.mp hy
        refine if_neg ?_
        intro he
        rw [← he] at hk
        exact (List.nodup_cons.mp hnd).1 hk
      rw [hz, add_zero]
    · have hxa : x ≠ a := fun he => (List.nodup_cons.mp hnd).1 (he ▸ hxt)
      rw [if_neg hxa, zero_add]
      exact ih (List.nodup_cons.mp hnd).2 hxt

theorem sum_map_add' {M K : Type} [AddCommMonoid M] (l : List K) (f g : K → M) :
    (l.map (fun k => f k + g k)).sum = (l.map f).sum + (l.map g).sum := by
  induction l with
  | nil => simp
  | cons a t ih =>
    rw [List.map_cons, List.sum_cons, List.map_cons, List.sum_cons, List.map_cons,
      List.sum_cons, ih, add_add_add_comm]

theorem partition_sum {α M : Type} [AddCommMonoid M] (l : List (RideMetrics α))
    (ks : List (ℤ × ℤ)) (g : RideMetrics α → M)
    (hnd : ks.Nodup) (hall : ∀ r ∈ l, weekKey r ∈ ks) :
    (ks.map (fun k =>
      ((l.filter (fun r => decide (weekKey r = k))).map g).sum)).sum = (l.map g).sum := by
  induction l with
  | nil => simp
  | cons r t ih =>
    have hall' : ∀ x ∈ t, weekKey x ∈ ks := fun x hx => hall x (List.mem_cons_of_mem r hx)
    rw [List.map_cons, List.sum_cons, ← ih hall']
    have hsplit : ∀ k, (((r :: t).filter (fun x => decide (weekKey x = k))).map g).sum
        = (if weekKey r = k then g r else 0)
          + ((t.filter (fun x => decide (weekKey x = k))).map g).sum := by
      intro k
      rw [List.filter_cons]
      by_cases h : weekKey r = k
      · simp [h]
      · simp [h]
    rw [List.map_congr_left (fun k _ => hsplit k),
      sum_map_add' ks (fun k => if weekKey r = k then g r else 0),
      sum_map_ite_single ks (weekKey r) (g r) hnd (hall r (List.mem_cons_self r t))]

theorem sum_map_one {K : Type} (l : List K) : (l.map (fun _ => (1 : ℕ))).sum = l.length := by
  induction l with
  | nil => rfl
  | cons a t ih => simp [ih, Nat.add_comm]

theorem partition_length {α : Type} (l : List (RideMetrics α)) (ks : List (ℤ × ℤ))
    (hnd : ks.Nodup) (hall : ∀ r ∈ l, weekKey r ∈ ks) :
    (ks.map (fun k => (l.filter (fun r => decide (weekKey r = k))).length)).sum
      = l.length := by
  have h := partition_sum l ks (fun _ => (1 : ℕ)) hnd hall
  rw [sum_map_one] at h
  rw [← h]
  exact congrArg List.sum (List.map_congr_left (fun k _ => (sum_map_one _).symm))

/-- C10: the weekly grouping partitions the input, so ride counts over the
rows sum to the number of rides and total energies over the rows sum to the
total energy over all rides. -/
theorem claim_C10 {α : Type} [Field α] (rides : List (RideMetrics α)) :
    ((summarizeDirectory rides).map (fun row => row.rideCount)).sum = rides.length
    ∧ ((summarizeDirectory rides).map (fun row => row.totalKj)).sum
        = (rides.map (fun r => r.totalKj)).sum := by
  have hnd : (stableSort lexLe (dictKeys rides)).Nodup :=
    ((stableSort_perm lexLe (dictKeys rides)).nodup_iff).mpr (nodup_dictKeys rides)
  have hall : ∀ r ∈ rides, weekKey r ∈ stableSort lexLe (dictKeys rides) := by
    intro r hr
    rw [(stableSort_perm lexLe (dictKeys rides)).mem_iff, mem_dictKeys]
    exact List.mem_map_of_mem weekKey hr
  constructor
  · rw [summarizeDirectory, sorted_groups_eq, List.map_map, List.map_map]
    exact partition_length rides _ hnd hall
  · rw [summarizeDirectory, sorted_groups_eq, List.map_map, List.map_map]
    exact partition_sum rides _ (fun r => r.totalKj) hnd hall

/-! ## Claims C6 and C9: ride analysis and exception freedom -/

/-- C6: the analyzer signals absence exactly on an empty extracted sample
sequence; otherwise it returns the record whose start time is the first
sorted sample's timestamp and whose fields are the calculator results over
the full sequence. -/
theorem claim_C6 (fitFile : String) (msgs : List Message) :
    (analyzeRide fitFile msgs = none ↔ extractRecords msgs = [])
    ∧ (∀ t p rest, extractRecords msgs = (t, p) :: rest →
        analyzeRide fitFile msgs = some
          { file := fitFile
            startTime := t
            avgWatts := ((meanQ (((t, p) :: rest).map Prod.snd) : ℚ) : ℝ)
            avgNp := normalizedPower (((t, p) :: rest).map Prod.snd)
            avgNoncoastingWatts :=
              ((noncoastingAverage (((t, p) :: rest).map Prod.snd) : ℚ) : ℝ)
            totalKj := ((rideEnergyKj ((t, p) :: rest) : ℚ) : ℝ) }) := by
  constructor
  · constructor
    · intro h
      cases hrec : extractRecords msgs with
      | nil => rfl
      | cons a rest =>
        rw [analyzeRide, hrec] at h
        simp at h
    · intro h
      rw [analyzeRide, h]
  · intro t p rest h
    rw [analyzeRide, h]

theorem normalizedPowerE_eq (powers : List ℚ) :
    normalizedPowerE powers = some (normalizedPower powers) := by
  simp only [normalizedPowerE, normalizedPower]
  by_cases h : rollingAverage powers 30 = []
  · rw [if_pos h, if_pos h]
    by_cases hp : powers = []
    · rw [if_pos hp, if_pos hp]
    · rw [if_neg hp, if_neg hp, pyMean, if_neg hp, Option.map_some']
  · rw [if_neg h, if_neg h, pyMean,
      if_neg (by simpa [List.map_eq_nil_iff] using h), Option.map_some']

theorem noncoastingAverageE_eq (powers : List ℚ) :
    noncoastingAverageE powers = some (noncoastingAverage powers) := by
  simp only [noncoastingAverageE, noncoastingAverage]
  by_cases h : powers.filter (fun p => decide (0 < p)) = []
  · rw [if_pos h, if_pos h]
  · rw [if_neg h, if_neg h, pyMean, if_neg h]

theorem analyzeRideE_eq (fitFile : String) (msgs : List Message) :
    analyzeRideE fitFile msgs = some (analyzeRide fitFile msgs) := by
  cases hrec : extractRecords msgs with
  | nil => rw [analyzeRideE, hrec, analyzeRide, hrec]
  | cons a rest =>
    obtain ⟨t, p⟩ := a
    simp only [analyzeRideE, hrec, analyzeRide]
    rw [pyMean, if_neg (by simp), Option.some_bind, normalizedPowerE_eq,
      Option.some_bind, noncoastingAverageE_eq, Option.map_some']

/-- C9: no metric computation raises: with every `statistics.mean` call site
made partial, normalized power, the non-coasting average and the full ride
analysis always return a value, for arbitrary (also negative) rational
powers — in particular the mean of an empty sequence is unreachable because
the analyzer returns the absence signal first. -/
theorem claim_C9 :
    (∀ powers : List ℚ, normalizedPowerE powers = some (normalizedPower powers))
    ∧ (∀ powers : List ℚ, noncoastingAverageE powers = some (noncoastingAverage powers))
    ∧ (∀ (fitFile : String) (msgs : List Message),
        analyzeRideE fitFile msgs = some (analyzeRide fitFile msgs)) :=
  ⟨normalizedPowerE_eq, noncoastingAverageE_eq, analyzeRideE_eq⟩

/-- C6 witness: a one-message session. -/
theorem claim_C6_witness :
    analyzeRide "ride.fit" [⟨some ⟨1, 1, 1, 0⟩, some 7⟩] = some
      { file := "ride.fit"
        startTime := ⟨1, 1, 1, 0⟩
        avgWatts := ((meanQ ([((⟨1, 1, 1, 0⟩ : Dt), (7 : ℚ))].map Prod.snd) : ℚ) : ℝ)
        avgNp := normalizedPower ([((⟨1, 1, 1, 0⟩ : Dt), (7 : ℚ))].map Prod.snd)
        avgNoncoastingWatts :=
          ((noncoastingAverage ([((⟨1, 1, 1, 0⟩ : Dt), (7 : ℚ))].map Prod.snd) : ℚ) : ℝ)
        totalKj := ((rideEnergyKj [((⟨1, 1, 1, 0⟩ : Dt), (7 : ℚ))] : ℚ) : ℝ) } :=
  (claim_C6 "ride.fit" [⟨some ⟨1, 1, 1, 0⟩, some 7⟩]).2 ⟨1, 1, 1, 0⟩ 7 []
    (by simp [extractRecords, recordOfMessage, stableSort, insertLe])

end WeeklyMetrics
